import Mathlib

/-!
Shallow embedding of the lute core (a music-metadata crawler and album
read-model service) for verification of its specification claims.

Modelling conventions:
- Rust `String` / `&str` values are embedded as `List Char` (`RStr`), so that
  every string operation used by the code (splitting, integer formatting and
  parsing, ASCII case folding) is a structural Lean function the kernel can
  evaluate.  String literals are written `str ("...")`.
- Redis structures are embedded by their contracts: a sorted set is an
  association list from member to score with unique members, a hash is an
  association list from field to value, claim-lease keys are the list of
  leased item keys.  Hash values are stored as typed records rather than JSON
  text: the code serializes with serde on write and deserializes the same
  type on read, which is the identity on well-formed records.
- `chrono` timestamps are embedded as `Int` seconds.  `Duration::days d` is
  `86400 * d` seconds.  `NaiveDateTime::from_timestamp_opt` is embedded with
  its documented representable-seconds range; the claims are settled at
  timestamps far inside (0) and far outside (10 ^ 18) that range, where the
  approximation of the exact chrono bounds is irrelevant.
- Fallible Rust functions (`Result`) are embedded as `Except String`.
- `f32` fields that no claim constrains (`rating`) are carried as an opaque
  integer placeholder so that records stay decidably comparable.
-/

/-- Rust strings, embedded as their character lists. -/
abbrev RStr := List Char

/-- The characters of a Lean string literal, used to write `RStr` constants. -/
def str (s : String) : RStr := s.data

/-- ASCII lowercasing of one character, as Rust `u8::to_ascii_lowercase`
acts on the characters of a string. -/
def to_ascii_lower (c : Char) : Char :=
  if 'A' ≤ c ∧ c ≤ 'Z' then Char.ofNat (c.toNat + 32) else c

/-- Rust `str::eq_ignore_ascii_case`: equality after ASCII lowercasing. -/
def eq_ignore_ascii_case (a b : RStr) : Bool :=
  a.map to_ascii_lower == b.map to_ascii_lower

/-- Rust `str::starts_with` on character lists. -/
def starts_with : List Char → List Char → Bool
  | [], _ => true
  | _ :: _, [] => false
  | d :: ds, c :: cs => d == c && starts_with ds cs

/-- The literal delimiter of serialized queue item keys. -/
def delim_chars : RStr := str (":DELIMETER:")

/-- First occurrence of `delim_chars` in a string: `some (before, after)`,
or `none` when the delimiter does not occur. -/
def split_first : List Char → Option (List Char × List Char)
  | [] => none
  | c :: rest =>
    if starts_with delim_chars (c :: rest) then
      some ([], (c :: rest).drop delim_chars.length)
    else
      match split_first rest with
      | none => none
      | some (a, b) => some (c :: a, b)

/-- Fuelled worker for `split_on_delim`; the fuel only bounds the number of
delimiter occurrences and is always sufficient at the call site. -/
def split_on_fuel : Nat → List Char → List (List Char)
  | 0, cs => [cs]
  | fuel + 1, cs =>
    match split_first cs with
    | none => [cs]
    | some (a, b) => a :: split_on_fuel fuel b

/-- Rust `str::split(":DELIMETER:").collect::<Vec<_>>()`: all fragments
between (non-overlapping, left-to-right) occurrences of the delimiter. -/
def split_on_delim (cs : List Char) : List (List Char) :=
  split_on_fuel (cs.length + 1) cs

/-- One decimal digit as a character (`0 ≤ d < 10` at every use). -/
def digit_char (d : Nat) : Char := Char.ofNat (48 + d)

/-- Fuelled worker for `nat_chars`; fuel `n + 1` always suffices. -/
def nat_chars_aux : Nat → Nat → List Char → List Char
  | 0, _, acc => acc
  | fuel + 1, n, acc =>
    if n < 10 then digit_char n :: acc
    else nat_chars_aux fuel (n / 10) (digit_char (n % 10) :: acc)

/-- Decimal representation of a natural number, as Rust formats integers. -/
def nat_chars (n : Nat) : List Char := nat_chars_aux (n + 1) n []

/-- Decimal representation of a signed integer, as Rust `format!` writes
an `i64`. -/
def int_chars (i : Int) : List Char :=
  if i < 0 then '-' :: nat_chars i.natAbs else nat_chars i.toNat

/-- The numeric value of a decimal digit character, `none` otherwise. -/
def digit_val (c : Char) : Option Nat :=
  if '0' ≤ c ∧ c ≤ '9' then some (c.toNat - 48) else none

/-- Fuel-free accumulator loop of decimal parsing. -/
def parse_digits_aux (acc : Nat) : List Char → Option Nat
  | [] => some acc
  | c :: rest =>
    match digit_val c with
    | none => none
    | some d => parse_digits_aux (acc * 10 + d) rest

/-- All-digit parse of a non-empty string of decimal digits. -/
def parse_digits : List Char → Option Nat
  | [] => none
  | c :: rest => parse_digits_aux 0 (c :: rest)

/-- Largest `i64` value, for Rust's overflow-checked integer parsing. -/
def i64_max : Int := 9223372036854775807

/-- Smallest `i64` value. -/
def i64_min : Int := -9223372036854775808

/-- Rust `str::parse::<i64>()`: optional sign, all decimal digits, rejected
on empty digits or `i64` overflow. -/
def parse_i64 : List Char → Option Int
  | [] => none
  | c :: rest =>
    if c = '-' then
      (parse_digits rest).bind fun n =>
        if (n : Int) ≤ -i64_min then some (-(n : Int)) else none
    else if c = '+' then
      (parse_digits rest).bind fun n =>
        if (n : Int) ≤ i64_max then some (n : Int) else none
    else
      (parse_digits (c :: rest)).bind fun n =>
        if (n : Int) ≤ i64_max then some (n : Int) else none

/-- Representable-seconds bound of `chrono::NaiveDateTime`
(`from_timestamp_opt` returns `None` outside it).  The exact chrono bounds
are of the order of 10 ^ 12..10 ^ 13; the claims only evaluate this far
inside and far outside the range, so these documented approximations are
never load-bearing. -/
def naive_date_time_max_ts : Int := 8210266876799

/-- Lower representable-seconds bound of `chrono::NaiveDateTime`. -/
def naive_date_time_min_ts : Int := -8334601228800

/-- `chrono::NaiveDateTime::from_timestamp_opt(secs, 0)`, on the embedding
of naive datetimes as their second timestamps. -/
def from_timestamp_opt (secs : Int) : Option Int :=
  if naive_date_time_min_ts ≤ secs ∧ secs ≤ naive_date_time_max_ts then some secs else none

/-- `FileName` (src/core/src/files/file_metadata/file_name.rs is not under
src/): an immutable string identifier; equality and ordering are those of the
underlying string. -/
abbrev FileName := RStr

/-- The four page types classifying a `FileName`
(`PageType` in file_name.rs; the variants appear in the src match of
`FileInteractor::is_file_stale`). -/
inductive PageType where
  | artist
  | album
  | chart
  | albumSearchResult
deriving DecidableEq, Repr

/-- `Priority` of src/core/src/crawler/priority_queue.rs: four classes with
explicit discriminants 0..3. -/
inductive Priority where
  | express
  | high
  | standard
  | low
deriving DecidableEq, Repr

/-- The discriminant of a priority (`Priority as u32`), which is also its
sorted-set score (`as u32 as f64`; every score in the model is a whole
number, so scores are carried as `Nat`). -/
def priority_score : Priority → Nat
  | .express => 0
  | .high => 1
  | .standard => 2
  | .low => 3

/-- `TryFrom<u32> for Priority`. -/
def priority_try_from (value : Nat) : Except String Priority :=
  match value with
  | 0 => .ok .express
  | 1 => .ok .high
  | 2 => .ok .standard
  | 3 => .ok .low
  | _ => .error ("Invalid priority value")

/-- `ItemKey` of priority_queue.rs.  `enqueue_time` is a
`chrono::NaiveDateTime`; its serialization keeps only whole seconds
(`timestamp()`), so the embedding carries the timestamp in seconds. -/
structure ItemKey where
  enqueue_time : Int
  deduplication_key : RStr
deriving DecidableEq, Repr

/-- `ItemKey::to_string`: `format!("{}:DELIMETER:{}", timestamp, key)`. -/
def ItemKey.to_chars (key : ItemKey) : RStr :=
  int_chars key.enqueue_time ++ delim_chars ++ key.deduplication_key

/-- `ItemKey::from_str`: split on the delimiter, demand exactly two parts,
parse the first as an `i64` accepted by `from_timestamp_opt`. -/
def ItemKey.from_chars (s : RStr) : Except String ItemKey :=
  let parts := split_on_delim s
  if parts.length ≠ 2 then .error ("Invalid queue item member string")
  else
    match parse_i64 (parts.headD []) with
    | none => .error ("invalid digit found in string")
    | some secs =>
      match from_timestamp_opt secs with
      | none => .error ("Invalid queue item member string")
      | some enqueue_time => .ok ⟨enqueue_time, parts.getD 1 []⟩

/-- `QueuePushParameters` of priority_queue.rs. -/
structure QueuePushParameters where
  file_name : FileName
  priority : Option Priority := none
  deduplication_key : Option RStr := none
  correlation_id : Option RStr := none
  metadata : Option (List (RStr × RStr)) := none
deriving DecidableEq, Repr

/-- `QueueItemSetRecord`: the hash value stored under the deduplication
key. -/
structure QueueItemSetRecord where
  file_name : FileName
  correlation_id : Option RStr
  metadata : Option (List (RStr × RStr))
deriving DecidableEq, Repr

/-- `QueueItem` as `PriorityQueue::get_item` assembles it. -/
structure QueueItem where
  item_key : ItemKey
  enqueue_time : Int
  deduplication_key : RStr
  file_name : FileName
  priority : Priority
  correlation_id : Option RStr
  metadata : Option (List (RStr × RStr))
deriving DecidableEq, Repr

/-- The Redis state owned by `PriorityQueue`: the sorted set
`crawler:queue` (member string, score), the hash `crawler:queue:items`
(deduplication key, record), and the claim-lease keys
`crawler:queue:claimed:<ItemKey>` (the serialized item keys that currently
hold a lease). -/
structure QueueState where
  sorted_set : List (RStr × Nat)
  item_hash : List (RStr × QueueItemSetRecord)
  claimed : List RStr
deriving DecidableEq, Repr

/-- Keyed upsert on an association list: the shared shape of Redis `HSET`,
`ZADD` (default options) and `JSON.SET`-by-key — update the entry in place
when the key is present, append it otherwise. -/
def alist_upsert {β : Type} (l : List (RStr × β)) (k : RStr) (v : β) : List (RStr × β) :=
  if l.any (fun e => e.1 == k) then l.map (fun e => if e.1 == k then (k, v) else e)
  else l ++ [(k, v)]

/-- Keyed lookup on an association list: the shared shape of Redis `HGET`,
`ZSCORE` and `JSON.GET`-by-key. -/
def alist_find {β : Type} (l : List (RStr × β)) (k : RStr) : Option β :=
  (l.find? (fun e => e.1 == k)).map (·.2)

/-- Redis `HEXISTS` on an association-list hash. -/
def hexists (h : List (RStr × QueueItemSetRecord)) (k : RStr) : Bool :=
  h.any (fun e => e.1 == k)

/-- Redis `HSET`: update the field in place or append it. -/
def hset (h : List (RStr × QueueItemSetRecord)) (k : RStr) (v : QueueItemSetRecord) :
    List (RStr × QueueItemSetRecord) :=
  alist_upsert h k v

/-- Redis `HGET` on an association-list hash. -/
def hget (h : List (RStr × QueueItemSetRecord)) (k : RStr) : Option QueueItemSetRecord :=
  alist_find h k

/-- Redis `ZADD` (default options): update the member's score in place or
add the member. -/
def zadd (zs : List (RStr × Nat)) (member : RStr) (score : Nat) : List (RStr × Nat) :=
  alist_upsert zs member score

/-- Redis `ZSCORE`. -/
def zscore (zs : List (RStr × Nat)) (member : RStr) : Option Nat :=
  alist_find zs member

/-- Redis `ZCARD`: the sorted set's cardinality, which is
`PriorityQueue::get_size`. -/
def get_size (st : QueueState) : Nat := st.sorted_set.length

/-- `PriorityQueue::push`.  `now` is the enqueue instant
(`chrono::Utc::now()`, in whole seconds as serialized).  Mirrors the code:
dedup-key default, contains-check on the hash, full-check against
`max_size`, then the transaction `ZADD` + `HSET`. -/
def push (max_size : Nat) (st : QueueState) (now : Int) (params : QueuePushParameters) :
    Except String QueueState :=
  let deduplication_key := params.deduplication_key.getD params.file_name
  if hexists st.item_hash deduplication_key then .ok st
  else if max_size ≤ get_size st then .error ("Queue is full")
  else
    .ok { st with
      sorted_set := zadd st.sorted_set
        (ItemKey.to_chars ⟨now, deduplication_key⟩)
        (priority_score (params.priority.getD .standard)),
      item_hash := hset st.item_hash deduplication_key
        ⟨params.file_name, params.correlation_id, params.metadata⟩ }

/-- `PriorityQueue::get_item`: read the hash record at the deduplication
key; when the sorted set has no score for the member, default the score to
`Priority::Standard`. -/
def get_item (st : QueueState) (key : ItemKey) : Except String (Option QueueItem) :=
  match hget st.item_hash key.deduplication_key with
  | none => .ok none
  | some record =>
    let score := (zscore st.sorted_set (ItemKey.to_chars key)).getD
      (priority_score .standard)
    match priority_try_from score with
    | .error e => .error e
    | .ok priority =>
      .ok (some ⟨key, key.enqueue_time, key.deduplication_key, record.file_name,
        priority, record.correlation_id, record.metadata⟩)

/-- `PriorityQueue::empty`: `DEL` of the sorted-set key and the item-hash
key (and of nothing else). -/
def empty (st : QueueState) : QueueState :=
  { st with sorted_set := [], item_hash := [] }

/-- `PriorityQueue::get_claimed_item_count`: the number of keys matching
`crawler:queue:claimed:*`. -/
def get_claimed_item_count (st : QueueState) : Nat := st.claimed.length

/-- `FileMetadata` (file_metadata.rs is not under src/; the fields are those
the spec and `FileInteractor` use).  Timestamps are `Int` seconds. -/
structure FileMetadata where
  id : Nat
  name : FileName
  first_saved_at : Int
  last_saved_at : Int
deriving DecidableEq, Repr

/-- The per-page-type TTL settings (`settings.file.ttl_days`; settings.rs is
not under src/, the four fields are those read by
`FileInteractor::is_file_stale`). -/
structure TtlDaysSettings where
  artist : Nat
  album : Nat
  chart : Nat
  search : Nat
deriving DecidableEq, Repr

/-- The `match file_name.page_type()` of `FileInteractor::is_file_stale`. -/
def ttl_days_for (s : TtlDaysSettings) : PageType → Nat
  | .artist => s.artist
  | .album => s.album
  | .chart => s.chart
  | .albumSearchResult => s.search

/-- `FileInteractor::is_file_stale`: a missing metadata record is stale;
otherwise stale iff `now > last_saved_at + Duration::days(ttl_days)`.
`find_by_name`'s result is passed in as `metadata`; `page_type` is the
classifier of the queried file name. -/
def is_file_stale (s : TtlDaysSettings) (page_type : PageType) (now : Int)
    (metadata : Option FileMetadata) : Bool :=
  match metadata with
  | none => true
  | some m => now > m.last_saved_at + 86400 * (ttl_days_for s page_type : Int)

/-- `ParsedFileData` (src/core/src/parser is not under src/).  Modelled from
the spec: a tagged variant over the four page kinds; the payloads are out of
the claims' scope and are omitted. -/
inductive ParsedFileData where
  | album
  | artist
  | chart
  | searchResult
deriving DecidableEq, Repr

/-- `Event` of src/core/src/events/event.rs, exactly as the enum is
declared there: three variants.  (Other src files construct and match an
`Event::FileDeleted` variant that this enum does not declare; see the C9
theorem.)  ULID file ids are carried as their `u128` value. -/
inductive Event where
  | fileSaved (file_id : Nat) (file_name : FileName)
  | fileParsed (file_id : Nat) (file_name : FileName) (data : ParsedFileData)
  | fileParseFailed (file_id : Nat) (file_name : FileName) (error : RStr)
deriving DecidableEq, Repr

/-- The serde wire tag of an event (`#[serde(tag = "type", content =
"data")]` uses the variant name). -/
def event_type_tag : Event → RStr
  | .fileSaved _ _ => str ("FileSaved")
  | .fileParsed _ _ _ => str ("FileParsed")
  | .fileParseFailed _ _ _ => str ("FileParseFailed")

/-- `std::collections::BinaryHeap<Reverse<T>>`, embedded by its contract
(the heap is std-library code, external to the repository): a min-heap whose
carrier is kept sorted ascending, so the root — the minimal element — is the
head.  `drain` yields the stored elements in the carrier's order; the std
documentation leaves that order arbitrary, and the ascending model coincides
with the real array layout for the monotone insertion sequences the
counterexample uses. -/
structure BinaryHeapRev (α : Type) [LinearOrder α] where
  data : List α

/-- `BinaryHeap::push` on the contract model: ordered insertion. -/
def BinaryHeapRev.push {α : Type} [LinearOrder α] (h : BinaryHeapRev α) (item : α) :
    BinaryHeapRev α :=
  ⟨h.data.orderedInsert (· ≤ ·) item⟩

/-- `BinaryHeap::pop` on `Reverse`-wrapped elements: remove a minimal
element (the root). -/
def BinaryHeapRev.pop {α : Type} [LinearOrder α] (h : BinaryHeapRev α) :
    Option α × BinaryHeapRev α :=
  match h.data with
  | [] => (none, h)
  | x :: xs => (some x, ⟨xs⟩)

/-- `BinaryHeap::len`. -/
def BinaryHeapRev.len {α : Type} [LinearOrder α] (h : BinaryHeapRev α) : Nat :=
  h.data.length

/-- `BoundedMinHeap` of src/core/src/helpers/bounded_min_heap.rs. -/
structure BoundedMinHeap (α : Type) [LinearOrder α] where
  heap : BinaryHeapRev α
  capacity : Nat

/-- `BoundedMinHeap::new`. -/
def BoundedMinHeap.new (α : Type) [LinearOrder α] (capacity : Nat) : BoundedMinHeap α :=
  ⟨⟨[]⟩, capacity⟩

/-- `BoundedMinHeap::push`: insert while below capacity; otherwise pop the
minimum and keep the larger of it and the incoming item. -/
def BoundedMinHeap.push {α : Type} [LinearOrder α] (h : BoundedMinHeap α) (item : α) :
    BoundedMinHeap α :=
  if h.heap.len < h.capacity then { h with heap := h.heap.push item }
  else
    match h.heap.pop with
    | (some m, rest) =>
      if m < item then { h with heap := rest.push item }
      else { h with heap := rest.push m }
    | (none, _) => h

/-- `BoundedMinHeap::drain`: `heap.drain().map(|x| x.0).collect()` — the
retained items in the carrier's (arbitrary, here ascending) order. -/
def BoundedMinHeap.drain {α : Type} [LinearOrder α] (h : BoundedMinHeap α) :
    List α × BoundedMinHeap α :=
  (h.heap.data, { h with heap := ⟨[]⟩ })

/-- Feeding a finite sequence of items into a bounded min-heap. -/
def push_all {α : Type} [LinearOrder α] (h : BoundedMinHeap α) (l : List α) :
    BoundedMinHeap α :=
  l.foldl BoundedMinHeap.push h

/-- The bounded heap's top-K property relative to the multiset of items
seen so far: the carrier is sorted ascending, has size
`min capacity |seen|`, is a sub-multiset of the seen items, and every seen
item outside it is at most every retained item — i.e. the carrier is
exactly the K largest seen items, up to the placement of ties. -/
def retains_top {α : Type} [LinearOrder α] (capacity : Nat) (seen : Multiset α)
    (data : List α) : Prop :=
  data.Sorted (· ≤ ·)
  ∧ data.length = min capacity (Multiset.card seen)
  ∧ (data : Multiset α) ≤ seen
  ∧ ∀ b ∈ seen - (data : Multiset α), ∀ a ∈ data, b ≤ a

/-- `chrono::NaiveDate`, embedded by its calendar fields; only `year` is
read by the code under verification. -/
structure NaiveDate where
  year : Int
  month : Nat
  day : Nat
deriving DecidableEq, Repr

/-- Rust `as u32` on an `i32` value: reduction modulo `2 ^ 32`. -/
def u32_cast (y : Int) : Nat := (y % 4294967296).toNat

/-- `AlbumReadModelArtist` (album_read_model.rs is not under src/; fields
per the spec and the src uses). -/
structure AlbumReadModelArtist where
  name : RStr
  file_name : FileName
deriving DecidableEq, Repr

/-- `AlbumReadModelTrack`. -/
structure AlbumReadModelTrack where
  name : RStr
  duration_seconds : Option Nat
  rating : Option Int
  position : Option RStr
deriving DecidableEq, Repr

/-- `AlbumReadModelCredit`. -/
structure AlbumReadModelCredit where
  artist : AlbumReadModelArtist
  roles : List RStr
deriving DecidableEq, Repr

/-- `AlbumReadModel` (album_read_model.rs is not under src/).  Modelled from
the spec (§3.3) and from the fields the src files read and write.  `rating`
is an `f32` the claims never constrain; it is carried as an opaque integer
placeholder. -/
structure AlbumReadModel where
  name : RStr
  file_name : FileName
  rating : Int
  rating_count : Nat
  artists : List AlbumReadModelArtist
  primary_genres : List RStr
  secondary_genres : List RStr
  descriptors : List RStr
  tracks : List AlbumReadModelTrack
  release_date : Option NaiveDate
  languages : List RStr
  credits : List AlbumReadModelCredit
  duplicate_of : Option FileName
  duplicates : List FileName
  cover_image_url : Option RStr
deriving DecidableEq, Repr

/-- Modelled from the spec: `AlbumReadModel::ascii_name` (album_read_model.rs
is not under src/) is the album's name in ASCII form; the claims only use it
through `eq_ignore_ascii_case`, for which the name itself is faithful. -/
def AlbumReadModel.ascii_name (a : AlbumReadModel) : RStr := a.name

/-- Modelled from the spec: `AlbumReadModel::credit_tags` (album_read_model.rs
is not under src/) derives one tag per credited artist and role.  The C8
claim constrains only the stored tag list's length, never its content. -/
def AlbumReadModel.credit_tags (a : AlbumReadModel) : List RStr :=
  a.credits.flatMap fun credit =>
    credit.roles.map fun role => credit.artist.file_name ++ [':'] ++ role

/-- `RedisAlbumReadModel` of src/core/src/albums/redis_album_search_index.rs:
the persisted search document with its derived fields. -/
structure RedisAlbumReadModel where
  name : RStr
  file_name : FileName
  rating : Int
  rating_count : Nat
  artists : List AlbumReadModelArtist
  artist_count : Nat
  primary_genres : List RStr
  primary_genre_count : Nat
  secondary_genres : List RStr
  secondary_genre_count : Nat
  descriptors : List RStr
  descriptor_count : Nat
  tracks : List AlbumReadModelTrack
  release_date : Option NaiveDate
  release_year : Option Nat
  languages : List RStr
  language_count : Nat
  credits : List AlbumReadModelCredit
  credit_tags : List RStr
  credit_tag_count : Nat
  duplicate_of : Option FileName
  is_duplicate : Nat
  duplicates : List FileName
  name_tag : RStr
  cover_image_url : Option RStr
deriving DecidableEq, Repr

/-- `Into<RedisAlbumReadModel> for AlbumReadModel`
(redis_album_search_index.rs lines 94-134), field for field. -/
def into_redis (a : AlbumReadModel) : RedisAlbumReadModel :=
  let artist_count := a.artists.length
  let primary_genre_count := a.primary_genres.length
  let secondary_genre_count := a.secondary_genres.length
  let descriptor_count := a.descriptors.length
  let language_count := a.languages.length
  let credit_tags := a.credit_tags
  let credit_tag_count := credit_tags.length
  let release_year := a.release_date.map fun d => u32_cast d.year
  let is_duplicate := if a.duplicate_of.isSome then 1 else 0
  { name_tag := a.name
    name := a.name
    file_name := a.file_name
    rating := a.rating
    rating_count := a.rating_count
    artists := a.artists
    artist_count := artist_count
    primary_genres := a.primary_genres
    primary_genre_count := primary_genre_count
    secondary_genres := a.secondary_genres
    secondary_genre_count := secondary_genre_count
    descriptors := a.descriptors
    descriptor_count := descriptor_count
    tracks := a.tracks
    release_date := a.release_date
    release_year := release_year
    languages := a.languages
    language_count := language_count
    credits := a.credits
    credit_tags := credit_tags
    credit_tag_count := credit_tag_count
    duplicate_of := a.duplicate_of
    duplicates := a.duplicates
    is_duplicate := is_duplicate
    cover_image_url := a.cover_image_url }

/-- The search index's document store (`album:<file_name>` JSON documents),
an association list from file name to stored document.  The embedding
sub-documents `RedisAlbumSearchIndex::put` reads and reapplies are
orthogonal to every claim and are omitted. -/
abbrev SearchIndex := List (FileName × RedisAlbumReadModel)

/-- `RedisAlbumSearchIndex::put`: overwrite the document at the album's
file name with the converted read model. -/
def index_put (idx : SearchIndex) (album : AlbumReadModel) : SearchIndex :=
  alist_upsert idx album.file_name (into_redis album)

/-- Document lookup in the search index. -/
def index_find (idx : SearchIndex) (file_name : FileName) : Option RedisAlbumReadModel :=
  alist_find idx file_name

/-- The album repository's contents: the `album:<file_name>` documents, one
record per stored file name. -/
abbrev AlbumRepo := List AlbumReadModel

/-- `AlbumRepository::find`: the record stored at a file name. -/
def repo_find (repo : AlbumRepo) (file_name : FileName) : Option AlbumReadModel :=
  repo.find? (fun a => a.file_name == file_name)

/-- `AlbumRepository::get`: `find`, failing when the record is absent. -/
def repo_get (repo : AlbumRepo) (file_name : FileName) : Except String AlbumReadModel :=
  match repo_find repo file_name with
  | some record => .ok record
  | none => .error ("Album does not exist")

/-- `AlbumRepository::put`: overwrite the record keyed by the album's file
name (document-store `JSON.SET` at the album key). -/
def repo_put (repo : AlbumRepo) (album : AlbumReadModel) : AlbumRepo :=
  if repo.any (fun a => a.file_name == album.file_name) then
    repo.map fun a => if a.file_name == album.file_name then album else a
  else repo ++ [album]

/-- `AlbumRepository::delete`: drop the record at the file name. -/
def repo_delete (repo : AlbumRepo) (file_name : FileName) : AlbumRepo :=
  repo.filter fun a => a.file_name ≠ file_name

/-- Pointwise update of the record at one file name. -/
def repo_update (repo : AlbumRepo) (file_name : FileName)
    (f : AlbumReadModel → AlbumReadModel) : AlbumRepo :=
  repo.map fun a => if a.file_name == file_name then f a else a

/-- `AlbumRepository::set_duplicates`. -/
def set_duplicates (repo : AlbumRepo) (file_name : FileName)
    (duplicates : List FileName) : AlbumRepo :=
  repo_update repo file_name fun a => { a with duplicates := duplicates }

/-- `AlbumRepository::set_duplicate_of`. -/
def set_duplicate_of (repo : AlbumRepo) (file_name : FileName)
    (duplicate_of : FileName) : AlbumRepo :=
  repo_update repo file_name fun a => { a with duplicate_of := some duplicate_of }

/-- Modelled from the spec: `AlbumRepository::find_artist_albums` (declared
outside the src trait, implementation not under src/) returns every stored
album having at least one of the given artists — the spec's step 1, "fetch
all albums of every artist of the new album". -/
def find_artist_albums (repo : AlbumRepo) (artist_file_names : List FileName) :
    List AlbumReadModel :=
  repo.filter fun album =>
    album.artists.any fun artist => artist_file_names.contains artist.file_name

/-- The potential-duplicate fetch and filter of
`AlbumInteractor::process_duplicates` (album_interactor.rs lines 28-44). -/
def duplicate_matches (repo : AlbumRepo) (album : AlbumReadModel) :
    List AlbumReadModel :=
  (find_artist_albums repo (album.artists.map (·.file_name))).filter
    fun potential_duplicate =>
      eq_ignore_ascii_case potential_duplicate.ascii_name album.ascii_name

/-- `iter_tools::sorted_by` with comparator
`b.rating_count.partial_cmp(&a.rating_count)`: a stable sort descending by
rating count (`partial_cmp` on `u32` is total, `Equal` keeps input order).
A structural insertion sort with the matching total preorder computes the
same stable result. -/
def sorted_by_rating_count_desc (l : List AlbumReadModel) : List AlbumReadModel :=
  l.insertionSort fun a b => b.rating_count ≤ a.rating_count

/-- `Vec<FileName>::sort()`: ascending by the string order. -/
def sort_file_names (l : List FileName) : List FileName :=
  l.insertionSort (· ≤ ·)

/-- The per-duplicate step of `process_duplicates` (album_interactor.rs
lines 76-90): when the record's `duplicate_of` is absent or different, set
it and re-index the updated record.  The accumulator carries the repository
and the trace of search-index `put`s performed. -/
def apply_duplicate (original_file_name : FileName)
    (acc : AlbumRepo × List AlbumReadModel) (duplicate_album : AlbumReadModel) :
    AlbumRepo × List AlbumReadModel :=
  if duplicate_album.duplicate_of ≠ some original_file_name then
    (set_duplicate_of acc.1 duplicate_album.file_name original_file_name,
      acc.2 ++ [{ duplicate_album with duplicate_of := some original_file_name }])
  else acc

/-- `AlbumInteractor::process_duplicates` (album_interactor.rs lines
27-93).  Returns the repository after reconciliation together with the
search-index `put`s it performed (records already holding the exact target
values are not rewritten). -/
def process_duplicates (repo : AlbumRepo) (album : AlbumReadModel) :
    AlbumRepo × List AlbumReadModel :=
  let potential_duplicates := duplicate_matches repo album
  if potential_duplicates.length ≤ 1 then (repo, [])
  else
    match sorted_by_rating_count_desc potential_duplicates with
    | [] => (repo, [])
    | original_album :: duplicate_albums =>
      let duplicates := sort_file_names (duplicate_albums.map (·.file_name))
      let acc0 :=
        if original_album.duplicates ≠ duplicates then
          (set_duplicates repo original_album.file_name duplicates,
            [{ original_album with duplicates := duplicates }])
        else (repo, [])
      duplicate_albums.foldl (apply_duplicate original_album.file_name) acc0

/-- `AlbumInteractor::put` (album_interactor.rs lines 95-110): store the
album in the repository, `put` it to the search index, then run
reconciliation (whose errors are logged and swallowed; the pure model's
reconciliation cannot fail).  Returns the final repository and the trace of
search-index `put`s: the album itself, then the reconciliation's. -/
def interactor_put (repo : AlbumRepo) (album : AlbumReadModel) :
    AlbumRepo × List AlbumReadModel :=
  let repo1 := repo_put repo album
  let reconciled := process_duplicates repo1 album
  (reconciled.1, album :: reconciled.2)

/-- `AlbumInteractor::process_duplicates_by_file_name` (album_interactor.rs
lines 112-115): `get` the record, then reconcile anchored on it. -/
def process_duplicates_by_file_name (repo : AlbumRepo) (file_name : FileName) :
    Except String (AlbumRepo × List AlbumReadModel) :=
  match repo_get repo file_name with
  | .error e => .error e
  | .ok album => .ok (process_duplicates repo album)

/-- `AlbumInteractor::delete` (album_interactor.rs lines 117-133): `get` the
record (propagating its error), delete it from repository and index, and —
when it had a `duplicate_of` target or a non-empty `duplicates` list —
re-run reconciliation via `process_duplicates_by_file_name` on the deleted
album's own `file_name`, logging and swallowing any error. -/
def interactor_delete (repo : AlbumRepo) (file_name : FileName) :
    Except String AlbumRepo :=
  match repo_get repo file_name with
  | .error e => .error e
  | .ok album =>
    let repo1 := repo_delete repo file_name
    if (album.duplicate_of.or album.duplicates.head?).isSome then
      match process_duplicates_by_file_name repo1 file_name with
      | .ok reconciled => .ok reconciled.1
      | .error _ => .ok repo1
    else .ok repo1

/-- The artist "V" of the spec's scenario S4. -/
def artist_v : AlbumReadModelArtist := ⟨str ("V"), str ("artist/v")⟩

/-- A scenario album: one artist, a name, a rating count and duplicate
links; every field no scenario constrains is empty. -/
def mk_s4_album (name : RStr) (file_name : FileName) (rating_count : Nat)
    (duplicate_of : Option FileName) (duplicates : List FileName) : AlbumReadModel :=
  { name := name, file_name := file_name, rating := 0, rating_count := rating_count,
    artists := [artist_v], primary_genres := [], secondary_genres := [],
    descriptors := [], tracks := [], release_date := none, languages := [],
    credits := [], duplicate_of := duplicate_of, duplicates := duplicates,
    cover_image_url := none }

/-- S4: the 100-rated "Kid A", the group's original. -/
def album_kid_a_100 : AlbumReadModel :=
  mk_s4_album (str ("Kid A")) (str ("album/kid-a-100")) 100 none
    [str ("album/kid-a-10"), str ("album/kid-a-50")]

/-- S4: the 50-rated duplicate. -/
def album_kid_a_50 : AlbumReadModel :=
  mk_s4_album (str ("Kid A")) (str ("album/kid-a-50")) 50
    (some (str ("album/kid-a-100"))) []

/-- S4: the 10-rated duplicate. -/
def album_kid_a_10 : AlbumReadModel :=
  mk_s4_album (str ("Kid A")) (str ("album/kid-a-10")) 10
    (some (str ("album/kid-a-100"))) []

/-- The S4 repository after the three puts: a reconciled duplicate group. -/
def repo_s4 : AlbumRepo := [album_kid_a_100, album_kid_a_50, album_kid_a_10]

/-- A fresh 100-rated "Kid A" with no duplicate links yet, for the C1
witness. -/
def album_w_hi : AlbumReadModel :=
  mk_s4_album (str ("Kid A")) (str ("album/a")) 100 none []

/-- A fresh 50-rated "Kid A" with no duplicate links yet. -/
def album_w_lo : AlbumReadModel :=
  mk_s4_album (str ("Kid A")) (str ("album/b")) 50 none []

theorem find_map_hit {β : Type} (l : List (RStr × β)) (k : RStr) (v : β)
    (h : l.any (fun e => e.1 == k) = true) :
    (l.map (fun e => if e.1 == k then (k, v) else e)).find? (fun e => e.1 == k)
      = some (k, v) := by
  induction l with
  | nil => simp at h
  | cons e rest ih =>
    by_cases he : (e.1 == k) = true
    · simp [List.find?, he]
    · have hr : rest.any (fun e => e.1 == k) = true := by
        simp only [List.any_cons, he, Bool.false_or] at h
        exact h
      rw [List.map_cons, if_neg he,
        @List.find?_cons_of_neg _ (fun x => x.1 == k) e _ he]
      exact ih hr

theorem find_append_miss {β : Type} (l : List (RStr × β)) (k : RStr) (v : β)
    (h : l.any (fun e => e.1 == k) = false) :
    (l ++ [(k, v)]).find? (fun e => e.1 == k) = some (k, v) := by
  induction l with
  | nil => simp [List.find?]
  | cons e rest ih =>
    simp only [List.any_cons, Bool.or_eq_false_iff] at h
    rw [List.cons_append, List.find?_cons_of_neg _ (by simp [h.1])]
    exact ih h.2

theorem alist_find_upsert_self {β : Type} (l : List (RStr × β)) (k : RStr) (v : β) :
    alist_find (alist_upsert l k v) k = some v := by
  unfold alist_upsert alist_find
  by_cases h : l.any (fun e => e.1 == k) = true
  · rw [if_pos h, find_map_hit l k v h]
    rfl
  · rw [if_neg h, find_append_miss l k v (Bool.of_not_eq_true h)]
    rfl

theorem alist_upsert_length_le {β : Type} (l : List (RStr × β)) (k : RStr) (v : β) :
    (alist_upsert l k v).length ≤ l.length + 1 := by
  unfold alist_upsert
  by_cases h : l.any (fun e => e.1 == k) = true
  · rw [if_pos h, List.length_map]; omega
  · rw [if_neg h, List.length_append]; simp

/-- C5: `is_file_stale(file_name)` returns true if and only if the file's
metadata record is missing, or the current time is strictly greater than the
record's `last_saved_at` plus the configured `ttl_days` for the file's page
type; otherwise it returns false. -/
theorem c5_is_file_stale_iff (s : TtlDaysSettings) (page_type : PageType) (now : Int)
    (metadata : Option FileMetadata) :
    is_file_stale s page_type now metadata = true ↔
      metadata = none ∨ ∃ m, metadata = some m ∧
        now > m.last_saved_at + 86400 * (ttl_days_for s page_type : Int) := by
  cases metadata with
  | none => simp [is_file_stale]
  | some m => simp [is_file_stale]

/-- C7 counterexample: the claim says `empty()` also removes every
claim-lease key, so that `get_claimed_item_count()` returns 0; on a state
with one leased item key, `empty` leaves the lease and the count is 1. -/
theorem c7_cex_empty_keeps_claims :
    get_claimed_item_count
      (empty ⟨[], [], [str ("0:DELIMETER:album/x")]⟩) = 1 := by
  decide

/-- C7 (amended): `empty()` deletes the sorted set and the item hash — so
`get_size()` returns 0 — but deletes no claim-lease key: the claimed keys,
and with them `get_claimed_item_count()`, are unchanged. -/
theorem c7_empty_drops_queue_not_claims (st : QueueState) :
    get_size (empty st) = 0 ∧ (empty st).sorted_set = [] ∧ (empty st).item_hash = []
      ∧ (empty st).claimed = st.claimed
      ∧ get_claimed_item_count (empty st) = get_claimed_item_count st := by
  refine ⟨rfl, rfl, rfl, rfl, rfl⟩

/-- C9: the claim says the event type has exactly the four variants
`FileSaved`, `FileDeleted`, `FileParsed`, `FileParseFailed`; the enum of
src/core/src/events/event.rs declares only three — no value of the type
carries the `FileDeleted` wire tag, although file_interactor.rs line 130
constructs `Event::FileDeleted` and album_event_subscribers.rs lines 103 and
208 match it. -/
theorem c9_event_enum_lacks_file_deleted :
    (∀ e : Event,
      event_type_tag e = str ("FileSaved") ∨ event_type_tag e = str ("FileParsed")
        ∨ event_type_tag e = str ("FileParseFailed"))
    ∧ (∀ e : Event, event_type_tag e ≠ str ("FileDeleted")) := by
  constructor
  · intro e
    cases e with
    | fileSaved _ _ => exact Or.inl rfl
    | fileParsed _ _ _ => exact Or.inr (Or.inl rfl)
    | fileParseFailed _ _ _ => exact Or.inr (Or.inr rfl)
  · intro e
    cases e <;> (simp only [event_type_tag]; decide)

/-- C3: for every queue state, `push` skips (Ok, no structural change) when
the deduplication key — defaulting to the file name — is already present in
the item hash; fails with the queue-full error, mutating nothing, when the
queue size is at least `max_size`; otherwise adds exactly the sorted-set
member (scored by the priority) and the item record to the hash, and a size
bound `size ≤ max_size` is preserved by every outcome. -/
theorem c3_push_contract (max_size : Nat) (st : QueueState) (now : Int)
    (params : QueuePushParameters)
    (hinv : get_size st ≤ max_size) :
    (hexists st.item_hash (params.deduplication_key.getD params.file_name) = true →
        push max_size st now params = .ok st)
    ∧ (hexists st.item_hash (params.deduplication_key.getD params.file_name) = false →
        max_size ≤ get_size st →
        push max_size st now params = .error ("Queue is full"))
    ∧ (hexists st.item_hash (params.deduplication_key.getD params.file_name) = false →
        get_size st < max_size →
        push max_size st now params = .ok
          { st with
            sorted_set := zadd st.sorted_set
              (ItemKey.to_chars ⟨now, params.deduplication_key.getD params.file_name⟩)
              (priority_score (params.priority.getD .standard)),
            item_hash := hset st.item_hash (params.deduplication_key.getD params.file_name)
              ⟨params.file_name, params.correlation_id, params.metadata⟩ })
    ∧ (∀ st', push max_size st now params = .ok st' → get_size st' ≤ max_size) := by
  refine ⟨?_, ?_, ?_, ?_⟩
  · intro h
    simp [push, h]
  · intro h hfull
    simp [push, h, hfull]
  · intro h hlt
    have hnf : ¬ max_size ≤ get_size st := by omega
    simp [push, h, hnf]
  · intro st' hok
    simp only [push] at hok
    by_cases h1 : hexists st.item_hash (params.deduplication_key.getD params.file_name) = true
    · rw [if_pos h1] at hok
      injection hok with h
      rw [← h]
      exact hinv
    · rw [if_neg h1] at hok
      by_cases h2 : max_size ≤ get_size st
      · rw [if_pos h2] at hok
        exact Except.noConfusion hok
      · rw [if_neg h2] at hok
        injection hok with h
        have := alist_upsert_length_le st.sorted_set
          (ItemKey.to_chars ⟨now, params.deduplication_key.getD params.file_name⟩)
          (priority_score (params.priority.getD .standard))
        rw [← h]
        simp only [get_size, zadd] at *
        omega

/-- C3 witness: the contract applied to the empty queue with capacity 1. -/
theorem c3_push_contract_witness :
    get_size ⟨[], [], []⟩ ≤ 1
    ∧ (∀ st', push 1 ⟨[], [], []⟩ 0 ⟨str ("album/x"), none, none, none, none⟩ = .ok st' →
        get_size st' ≤ 1) :=
  ⟨by decide,
    (c3_push_contract 1 ⟨[], [], []⟩ 0 ⟨str ("album/x"), none, none, none, none⟩
      (by decide)).2.2.2⟩

/-- C10: a push whose parameters leave `priority` unset enqueues the member
at score `Priority::Standard as u32 = 2`; and `get_item` on a key whose hash
record exists but whose sorted-set member is missing reports priority
`Standard` instead of failing. -/
theorem c10_standard_priority_defaults (max_size : Nat) (st : QueueState) (now : Int)
    (params : QueuePushParameters) (key : ItemKey) (record : QueueItemSetRecord)
    (hp : params.priority = none)
    (hnew : hexists st.item_hash (params.deduplication_key.getD params.file_name) = false)
    (hroom : get_size st < max_size)
    (hrec : hget st.item_hash key.deduplication_key = some record)
    (hnoscore : zscore st.sorted_set (ItemKey.to_chars key) = none) :
    (∃ st', push max_size st now params = .ok st'
      ∧ zscore st'.sorted_set
          (ItemKey.to_chars ⟨now, params.deduplication_key.getD params.file_name⟩)
          = some (priority_score .standard))
    ∧ get_item st key = .ok (some
        { item_key := key, enqueue_time := key.enqueue_time,
          deduplication_key := key.deduplication_key, file_name := record.file_name,
          priority := .standard, correlation_id := record.correlation_id,
          metadata := record.metadata }) := by
  constructor
  · have hnf : ¬ max_size ≤ get_size st := by omega
    have epush : push max_size st now params = .ok
        { st with
          sorted_set := zadd st.sorted_set
            (ItemKey.to_chars ⟨now, params.deduplication_key.getD params.file_name⟩)
            (priority_score .standard),
          item_hash := hset st.item_hash (params.deduplication_key.getD params.file_name)
            ⟨params.file_name, params.correlation_id, params.metadata⟩ } := by
      simp [push, hnew, hnf, hp]
    exact ⟨_, epush, alist_find_upsert_self _ _ _⟩
  · simp [get_item, hrec, hnoscore, priority_try_from, priority_score]

/-- C10 witness: a concrete queue with a hash record whose sorted-set member
is missing, and a push with no priority. -/
theorem c10_standard_priority_defaults_witness :
    (∃ st', push 5 ⟨[], [(str ("k"), ⟨str ("fn"), none, none⟩)], []⟩ 0
        ⟨str ("album/f2"), none, none, none, none⟩ = .ok st'
      ∧ zscore st'.sorted_set (ItemKey.to_chars ⟨0, str ("album/f2")⟩)
          = some (priority_score .standard))
    ∧ get_item ⟨[], [(str ("k"), ⟨str ("fn"), none, none⟩)], []⟩ ⟨0, str ("k")⟩
        = .ok (some
          { item_key := ⟨0, str ("k")⟩, enqueue_time := 0,
            deduplication_key := str ("k"), file_name := str ("fn"),
            priority := .standard, correlation_id := none, metadata := none }) :=
  c10_standard_priority_defaults 5 ⟨[], [(str ("k"), ⟨str ("fn"), none, none⟩)], []⟩ 0
    ⟨str ("album/f2"), none, none, none, none⟩ ⟨0, str ("k")⟩ ⟨str ("fn"), none, none⟩
    rfl (by decide) (by decide) (by decide) (by decide)

/-- C8: for every album put to the search index, the stored document's
derived fields equal their sources: each count is the length of its source
list, `release_year` is the year of `release_date` (under Rust's `as u32`
cast) when present, `is_duplicate` is 1 exactly when `duplicate_of` is set,
and `name_tag` is the name. -/
theorem c8_derived_fields_equal_sources (idx : SearchIndex) (album : AlbumReadModel) :
    ∃ doc, index_find (index_put idx album) album.file_name = some doc
      ∧ doc.artist_count = album.artists.length
      ∧ doc.primary_genre_count = album.primary_genres.length
      ∧ doc.secondary_genre_count = album.secondary_genres.length
      ∧ doc.descriptor_count = album.descriptors.length
      ∧ doc.language_count = album.languages.length
      ∧ doc.credit_tags = album.credit_tags
      ∧ doc.credit_tag_count = doc.credit_tags.length
      ∧ doc.release_year = album.release_date.map (fun d => u32_cast d.year)
      ∧ doc.is_duplicate = (if album.duplicate_of.isSome then 1 else 0)
      ∧ doc.name_tag = album.name :=
  ⟨into_redis album, alist_find_upsert_self idx album.file_name (into_redis album),
    rfl, rfl, rfl, rfl, rfl, rfl, rfl, rfl, rfl, rfl⟩

/-- C2: after deleting the 100-rated album of the reconciled S4 group, the
code calls `process_duplicates_by_file_name` on the deleted album's own file
name; the repository `get` then fails, the error is swallowed, and the
surviving group is left un-healed — the 50-rated album still points at the
deleted file and gains no `duplicates` list, where the claim expects it to
become the original with `duplicates = [file of the 10-rated]`. -/
theorem c2_delete_leaves_group_unhealed :
    interactor_delete repo_s4 (str ("album/kid-a-100"))
        = .ok [album_kid_a_50, album_kid_a_10]
    ∧ process_duplicates_by_file_name (repo_delete repo_s4 (str ("album/kid-a-100")))
        (str ("album/kid-a-100")) = .error ("Album does not exist")
    ∧ repo_find [album_kid_a_50, album_kid_a_10] (str ("album/kid-a-50"))
        = some album_kid_a_50
    ∧ album_kid_a_50.duplicate_of = some (str ("album/kid-a-100"))
    ∧ album_kid_a_50.duplicates = [] := by
  refine ⟨?_, ?_, ?_, rfl, rfl⟩ <;> rfl

theorem digit_val_digit_char (d : Nat) (h : d < 10) :
    digit_val (digit_char d) = some d := by
  interval_cases d <;> decide

theorem digit_char_ne_colon (d : Nat) (h : d < 10) : digit_char d ≠ ':' := by
  interval_cases d <;> decide

theorem digit_char_ne_minus (d : Nat) (h : d < 10) : digit_char d ≠ '-' := by
  interval_cases d <;> decide

theorem digit_char_ne_plus (d : Nat) (h : d < 10) : digit_char d ≠ '+' := by
  interval_cases d <;> decide

theorem nat_chars_aux_shape (f : Nat) :
    ∀ n tail, 0 < f → ∃ d ds, d < 10
      ∧ nat_chars_aux f n tail = digit_char d :: (ds ++ tail)
      ∧ ∀ c ∈ ds, ∃ e, e < 10 ∧ c = digit_char e := by
  induction f with
  | zero => intro n tail h; omega
  | succ f ih =>
    intro n tail _
    by_cases h : n < 10
    · exact ⟨n, [], h, by simp [nat_chars_aux, h], by simp⟩
    · rcases Nat.eq_zero_or_pos f with hf | hf
      · subst hf
        exact ⟨n % 10, [], Nat.mod_lt _ (by omega), by simp [nat_chars_aux, h], by simp⟩
      · obtain ⟨d, ds, hd, heq, hds⟩ := ih (n / 10) (digit_char (n % 10) :: tail) hf
        refine ⟨d, ds ++ [digit_char (n % 10)], hd, ?_, ?_⟩
        · simp only [nat_chars_aux, if_neg h, heq, List.append_assoc, List.cons_append,
            List.nil_append]
        · intro c hc
          rcases List.mem_append.mp hc with hc | hc
          · exact hds c hc
          · simp only [List.mem_singleton] at hc
            exact ⟨n % 10, Nat.mod_lt _ (by omega), hc⟩

theorem parse_nat_chars_aux (f : Nat) :
    ∀ n tail acc, n < 10 ^ f →
      ∃ m, parse_digits_aux acc (nat_chars_aux f n tail)
        = parse_digits_aux (acc * m + n) tail := by
  induction f with
  | zero =>
    intro n tail acc h
    have : n = 0 := by omega
    subst this
    exact ⟨1, by simp [nat_chars_aux]⟩
  | succ f ih =>
    intro n tail acc h
    by_cases hn : n < 10
    · refine ⟨10, ?_⟩
      simp only [nat_chars_aux, if_pos hn, parse_digits_aux,
        digit_val_digit_char n hn]
    · have hdiv : n / 10 < 10 ^ f := by
        rw [Nat.div_lt_iff_lt_mul (by omega)]
        calc n < 10 ^ (f + 1) := h
        _ = 10 ^ f * 10 := by ring
      obtain ⟨m, hm⟩ := ih (n / 10) (digit_char (n % 10) :: tail) acc hdiv
      refine ⟨m * 10, ?_⟩
      rw [nat_chars_aux, if_neg hn, hm]
      have hstep : parse_digits_aux (acc * m + n / 10) (digit_char (n % 10) :: tail)
          = parse_digits_aux ((acc * m + n / 10) * 10 + n % 10) tail := by
        simp [parse_digits_aux, digit_val_digit_char (n % 10) (Nat.mod_lt _ (by omega))]
      rw [hstep]
      have harg : (acc * m + n / 10) * 10 + n % 10 = acc * (m * 10) + n := by
        have hdm := Nat.div_add_mod n 10
        ring_nf
        omega
      exact congrArg (fun a => parse_digits_aux a tail) harg

theorem nat_chars_shape (n : Nat) :
    ∃ d ds, d < 10 ∧ nat_chars n = digit_char d :: ds
      ∧ ∀ c ∈ ds, ∃ e, e < 10 ∧ c = digit_char e := by
  obtain ⟨d, ds, hd, heq, hds⟩ := nat_chars_aux_shape (n + 1) n [] (by omega)
  exact ⟨d, ds, hd, by simpa [nat_chars] using heq, hds⟩

theorem n_lt_ten_pow (n : Nat) : n < 10 ^ (n + 1) :=
  lt_of_lt_of_le (Nat.lt_two_pow n)
    (le_trans (Nat.pow_le_pow_left (by omega) n)
      (Nat.pow_le_pow_right (by omega) (by omega)))

theorem parse_digits_nat_chars (n : Nat) : parse_digits (nat_chars n) = some n := by
  obtain ⟨d, ds, hd, heq, _⟩ := nat_chars_shape n
  obtain ⟨m, hm⟩ := parse_nat_chars_aux (n + 1) n [] 0 (n_lt_ten_pow n)
  calc parse_digits (nat_chars n)
      = parse_digits_aux 0 (nat_chars n) := by rw [heq]; rfl
    _ = parse_digits_aux (0 * m + n) [] := by simpa [nat_chars] using hm
    _ = some n := by simp [parse_digits_aux]

theorem colon_not_mem_int_chars (t : Int) : ':' ∉ int_chars t := by
  unfold int_chars
  have h : ∀ k : Nat, ':' ∉ nat_chars k := by
    intro k hk
    obtain ⟨d, ds, hd, heq, hds⟩ := nat_chars_shape k
    rw [heq] at hk
    rcases List.mem_cons.mp hk with hk | hk
    · exact digit_char_ne_colon d hd hk.symm
    · obtain ⟨e, he, hce⟩ := hds _ hk
      exact digit_char_ne_colon e he hce.symm
  by_cases ht : t < 0
  · rw [if_pos ht]
    intro hmem
    rcases List.mem_cons.mp hmem with hc | hc
    · exact absurd hc (by decide)
    · exact h _ hc
  · rw [if_neg ht]
    exact h _

theorem parse_i64_int_chars (t : Int) (h1 : i64_min ≤ t) (h2 : t ≤ i64_max) :
    parse_i64 (int_chars t) = some t := by
  by_cases ht : t < 0
  · rw [int_chars, if_pos ht]
    have hcond : ((t.natAbs : Int)) ≤ -i64_min := by
      rw [i64_min] at h1 ⊢
      omega
    simp only [parse_i64, if_pos rfl, parse_digits_nat_chars, Option.some_bind,
      if_pos hcond]
    have : ((t.natAbs : Int)) = -t := by omega
    rw [this, neg_neg]
    simp
  · push_neg at ht
    obtain ⟨d, ds, hd, heq, _⟩ := nat_chars_shape t.toNat
    rw [int_chars, if_neg (not_lt.mpr ht), heq]
    simp only [parse_i64, if_neg (digit_char_ne_minus d hd),
      if_neg (digit_char_ne_plus d hd)]
    rw [← heq, parse_digits_nat_chars]
    have hcond : ((t.toNat : Int)) ≤ i64_max := by omega
    simp only [Option.some_bind, if_pos hcond]
    have : ((t.toNat : Int)) = t := by omega
    rw [this]

theorem starts_with_append (ds ys : List Char) : starts_with ds (ds ++ ys) = true := by
  induction ds with
  | nil => rfl
  | cons d ds ih => simp [starts_with, ih]

theorem split_first_delim_prefix (ys : List Char) :
    split_first (delim_chars ++ ys) = some ([], ys) := by
  have h1 : delim_chars ++ ys = ':' :: (str ("DELIMETER:") ++ ys) := rfl
  rw [h1, split_first]
  rw [show starts_with delim_chars (':' :: (str ("DELIMETER:") ++ ys)) = true from
    h1 ▸ starts_with_append delim_chars ys]
  rw [if_pos rfl]
  rw [show (':' :: (str ("DELIMETER:") ++ ys)).drop delim_chars.length = ys from
    h1 ▸ List.drop_left delim_chars ys]

theorem split_first_eq_append (xs ys : List Char) (hx : ':' ∉ xs) :
    split_first (xs ++ delim_chars ++ ys) = some (xs, ys) := by
  induction xs with
  | nil => simpa using split_first_delim_prefix ys
  | cons c xs ih =>
    have hc : c ≠ ':' := fun h => hx (h ▸ List.mem_cons_self c xs)
    have hsw : starts_with delim_chars (c :: (xs ++ delim_chars ++ ys)) = false := by
      show starts_with (':' :: str ("DELIMETER:")) (c :: (xs ++ delim_chars ++ ys)) = false
      simp [starts_with, Ne.symm hc]
    rw [List.cons_append, List.cons_append, split_first]
    rw [show (c :: (xs ++ delim_chars ++ ys)) = c :: (xs ++ delim_chars ++ ys) from rfl] at hsw
    rw [hsw]
    simp only [Bool.false_eq_true, if_false]
    rw [show xs ++ delim_chars ++ ys = xs ++ (delim_chars ++ ys) from by simp] at ih ⊢
    rw [ih (fun h => hx (List.mem_cons_of_mem c h))]

theorem split_on_fuel_no_delim (fuel : Nat) (ys : List Char)
    (h : split_first ys = none) : split_on_fuel fuel ys = [ys] := by
  cases fuel with
  | zero => rfl
  | succ fuel => simp [split_on_fuel, h]

theorem split_on_delim_two (xs ys : List Char) (hx : ':' ∉ xs)
    (hy : split_first ys = none) :
    split_on_delim (xs ++ delim_chars ++ ys) = [xs, ys] := by
  rw [split_on_delim]
  have hsf : split_first (xs ++ (delim_chars ++ ys)) = some (xs, ys) := by
    rw [← List.append_assoc]
    exact split_first_eq_append xs ys hx
  simp [split_on_fuel, hsf, split_on_fuel_no_delim _ ys hy]

/-- C6 (amended): serialization round-trips through parsing for every
`ItemKey` whose enqueue time is a whole representable second and whose
deduplication key does not itself contain `":DELIMETER:"`; parsing splits on
every occurrence of the literal delimiter and demands exactly two parts (so
a key containing the delimiter is rejected, not recovered); strings with no
delimiter, a non-integer timestamp, or an out-of-range timestamp are
rejected with an error. -/
theorem c6_item_key_round_trip (key : ItemKey)
    (hnd : split_first key.deduplication_key = none)
    (hlo : naive_date_time_min_ts ≤ key.enqueue_time)
    (hhi : key.enqueue_time ≤ naive_date_time_max_ts) :
    ItemKey.from_chars (ItemKey.to_chars key) = .ok key
    ∧ (∀ s, split_first s = none →
        ItemKey.from_chars s = .error ("Invalid queue item member string"))
    ∧ ItemKey.from_chars (str ("ts:DELIMETER:x"))
        = .error ("invalid digit found in string")
    ∧ ItemKey.from_chars (int_chars (10 ^ 18) ++ delim_chars ++ str ("x"))
        = .error ("Invalid queue item member string") := by
  refine ⟨?_, ?_, rfl, rfl⟩
  · obtain ⟨t, k⟩ := key
    simp only at hnd hlo hhi
    have hparts : split_on_delim (int_chars t ++ delim_chars ++ k) = [int_chars t, k] :=
      split_on_delim_two _ _ (colon_not_mem_int_chars t) hnd
    have hi64lo : i64_min ≤ t := by
      have : i64_min ≤ naive_date_time_min_ts := by decide
      omega
    have hi64hi : t ≤ i64_max := by
      have : naive_date_time_max_ts ≤ i64_max := by decide
      omega
    simp only [ItemKey.to_chars, ItemKey.from_chars, hparts, List.length_cons,
      List.length_nil, List.headD, List.getD, parse_i64_int_chars t hi64lo hi64hi,
      from_timestamp_opt, if_pos (And.intro hlo hhi)]
    simp
  · intro s hs
    have hparts : split_on_delim s = [s] := split_on_fuel_no_delim _ s hs
    simp [ItemKey.from_chars, hparts]

/-- C6 counterexample: for the key `"a:DELIMETER:b"` (containing the
delimiter) the claim says parsing the serialization recovers the key;
`from_str` splits into three parts and rejects it instead. -/
theorem c6_cex_delimiter_in_key :
    ItemKey.from_chars (ItemKey.to_chars ⟨0, str ("a:DELIMETER:b")⟩)
        = .error ("Invalid queue item member string")
    ∧ ItemKey.from_chars (ItemKey.to_chars ⟨0, str ("a:DELIMETER:b")⟩)
        ≠ .ok ⟨0, str ("a:DELIMETER:b")⟩ := by
  constructor
  · rfl
  · intro h
    exact Except.noConfusion
      ((show ItemKey.from_chars (ItemKey.to_chars ⟨0, str ("a:DELIMETER:b")⟩)
          = .error ("Invalid queue item member string") from rfl).symm.trans h)

/-- C6 witness: the round-trip at the key `(0, "album/x")`. -/
theorem c6_item_key_round_trip_witness :
    ItemKey.from_chars (ItemKey.to_chars ⟨0, str ("album/x")⟩)
      = .ok ⟨0, str ("album/x")⟩ :=
  (c6_item_key_round_trip ⟨0, str ("album/x")⟩ rfl (by decide) (by decide)).1

theorem bmh_push_capacity {α : Type} [LinearOrder α] (h : BoundedMinHeap α) (x : α) :
    (h.push x).capacity = h.capacity := by
  unfold BoundedMinHeap.push
  by_cases hlen : h.heap.len < h.capacity
  · rw [if_pos hlen]
  · rw [if_neg hlen]
    rcases hpop : h.heap.pop with ⟨o, rest⟩
    cases o with
    | none => rfl
    | some m =>
      dsimp only
      by_cases hmx : m < x
      · rw [if_pos hmx]
      · rw [if_neg hmx]

theorem retains_top_push {α : Type} [LinearOrder α] (cap : Nat) (M : Multiset α)
    (h : BoundedMinHeap α) (hcap : h.capacity = cap)
    (hinv : retains_top cap M h.heap.data) (x : α) :
    retains_top cap (x ::ₘ M) (h.push x).heap.data := by
  obtain ⟨hsort, hlen, hle, hdom⟩ := hinv
  unfold BoundedMinHeap.push
  by_cases hfull : h.heap.len < h.capacity
  · rw [if_pos hfull]
    show retains_top cap (x ::ₘ M) (h.heap.data.orderedInsert (· ≤ ·) x)
    unfold BinaryHeapRev.len at hfull
    rw [hcap] at hfull
    have hcard : Multiset.card M < cap := by
      rcases le_or_lt cap (Multiset.card M) with hc | hc
      · rw [min_eq_left hc] at hlen
        omega
      · exact hc
    have hdlen : h.heap.data.length = Multiset.card M := by
      rw [hlen, min_eq_right (le_of_lt hcard)]
    have hMeq : (h.heap.data : Multiset α) = M := by
      apply Multiset.eq_of_le_of_card_le hle
      rw [Multiset.coe_card, hdlen]
    refine ⟨?_, ?_, ?_, ?_⟩
    · exact List.Sorted.orderedInsert x h.heap.data hsort
    · rw [List.orderedInsert_length, Multiset.card_cons, hdlen,
        min_eq_right (by omega)]
    · show ((h.heap.data.orderedInsert (· ≤ ·) x : List α) : Multiset α) ≤ x ::ₘ M
      rw [Multiset.coe_eq_coe.mpr (List.perm_orderedInsert _ x h.heap.data),
        ← Multiset.cons_coe, hMeq]
    · intro b hb
      rw [show ((h.heap.data.orderedInsert (· ≤ ·) x : List α) : Multiset α) = x ::ₘ M from by
          rw [Multiset.coe_eq_coe.mpr (List.perm_orderedInsert _ x h.heap.data),
            ← Multiset.cons_coe, hMeq]] at hb
      rw [tsub_self] at hb
      exact absurd hb (Multiset.not_mem_zero b)
  · rw [if_neg hfull]
    unfold BinaryHeapRev.len at hfull
    rw [hcap] at hfull
    cases hdata : h.heap.data with
    | nil =>
      have hpop : h.heap.pop = (none, h.heap) := by
        unfold BinaryHeapRev.pop
        rw [hdata]
      rw [hpop]
      dsimp only
      rw [hdata] at hfull
      have hcap0 : cap = 0 := by simpa using hfull
      refine ⟨?_, ?_, ?_, ?_⟩
      · rw [hdata]; exact List.sorted_nil
      · rw [hdata, hcap0]; simp
      · rw [hdata]; simp
      · intro b _ a ha
        rw [hdata] at ha
        exact absurd ha (List.not_mem_nil a)
    | cons m rest =>
      have hpop : h.heap.pop = (some m, ⟨rest⟩) := by
        unfold BinaryHeapRev.pop
        rw [hdata]
      rw [hpop]
      dsimp only
      rw [hdata] at hsort hlen hle hdom
      have hlen_cap : rest.length + 1 = cap := by
        rw [hdata] at hfull
        simp only [List.length_cons] at hfull hlen
        rcases le_or_lt cap (Multiset.card M) with hc | hc
        · rw [min_eq_left hc] at hlen
          omega
        · rw [min_eq_right (le_of_lt hc)] at hlen
          omega
      have hcardM : cap ≤ Multiset.card M := by
        have := Multiset.card_le_card hle
        rw [Multiset.coe_card, List.length_cons] at this
        omega
      obtain ⟨R, hR⟩ := Multiset.le_iff_exists_add.mp hle
      have hMsub : M - ((m :: rest : List α) : Multiset α) = R := by
        rw [hR, add_tsub_cancel_left]
      have hMrest : M - (rest : Multiset α) = m ::ₘ R := by
        rw [hR, ← Multiset.cons_coe, show (m ::ₘ (rest : Multiset α)) + R
            = (rest : Multiset α) + (m ::ₘ R) from by
          rw [Multiset.cons_add, Multiset.add_cons], add_tsub_cancel_left]
      have hsort_rest : rest.Sorted (· ≤ ·) := hsort.of_cons
      have hm_min : ∀ a ∈ m :: rest, m ≤ a := by
        intro a ha
        rcases List.mem_cons.mp ha with rfl | ha
        · exact le_refl a
        · exact (List.sorted_cons.mp hsort).1 a ha
      have hdom' : ∀ b ∈ R, ∀ a ∈ m :: rest, b ≤ a := by
        intro b hb
        exact hdom b (hMsub ▸ hb)
      by_cases hmx : m < x
      · rw [if_pos hmx]
        show retains_top cap (x ::ₘ M) (rest.orderedInsert (· ≤ ·) x)
        have hperm : ((rest.orderedInsert (· ≤ ·) x : List α) : Multiset α)
            = x ::ₘ (rest : Multiset α) := by
          rw [Multiset.coe_eq_coe.mpr (List.perm_orderedInsert _ x rest),
            ← Multiset.cons_coe]
        refine ⟨List.Sorted.orderedInsert x rest hsort_rest, ?_, ?_, ?_⟩
        · rw [List.orderedInsert_length, Multiset.card_cons,
            min_eq_left (by omega), hlen_cap]
        · show ((rest.orderedInsert (· ≤ ·) x : List α) : Multiset α) ≤ x ::ₘ M
          rw [hperm]
          have hrle : (rest : Multiset α) ≤ M := by
            refine le_trans ?_ hle
            rw [← Multiset.cons_coe]
            exact Multiset.le_cons_self _ m
          exact Multiset.cons_le_cons x hrle
        · intro b hb a ha
          rw [hperm, show (x ::ₘ M) - (x ::ₘ (rest : Multiset α)) = M - (rest : Multiset α)
              from by rw [Multiset.sub_cons, Multiset.erase_cons_head], hMrest] at hb
          have ha2 : a = x ∨ a ∈ rest := (List.mem_orderedInsert _).mp ha
          rcases Multiset.mem_cons.mp hb with hbm | hbR
          · rcases ha2 with ha2 | ha2
            · rw [hbm, ha2]
              exact le_of_lt hmx
            · rw [hbm]
              exact hm_min a (List.mem_cons_of_mem m ha2)
          · rcases ha2 with ha2 | ha2
            · rw [ha2]
              exact le_of_lt (lt_of_le_of_lt (hdom' b hbR m (List.mem_cons_self m rest)) hmx)
            · exact hdom' b hbR a (List.mem_cons_of_mem m ha2)
      · rw [if_neg hmx]
        show retains_top cap (x ::ₘ M) (rest.orderedInsert (· ≤ ·) m)
        have hxm : x ≤ m := not_lt.mp hmx
        have hperm : ((rest.orderedInsert (· ≤ ·) m : List α) : Multiset α)
            = ((m :: rest : List α) : Multiset α) := by
          rw [Multiset.coe_eq_coe.mpr (List.perm_orderedInsert _ m rest),
            ← Multiset.cons_coe, Multiset.cons_coe]
        refine ⟨List.Sorted.orderedInsert m rest hsort_rest, ?_, ?_, ?_⟩
        · rw [List.orderedInsert_length, Multiset.card_cons,
            min_eq_left (by omega), hlen_cap]
        · show ((rest.orderedInsert (· ≤ ·) m : List α) : Multiset α) ≤ x ::ₘ M
          rw [hperm]
          exact le_trans hle (Multiset.le_cons_self M x)
        · intro b hb a ha
          rw [hperm, Multiset.cons_sub_of_le x hle, hMsub] at hb
          have ha' : a ∈ m :: rest := by
            rcases (List.mem_orderedInsert _).mp ha with ha2 | ha2
            · rw [ha2]
              exact List.mem_cons_self m rest
            · exact List.mem_cons_of_mem m ha2
          rcases Multiset.mem_cons.mp hb with hbx | hbR
          · rw [hbx]
            exact le_trans hxm (hm_min a ha')
          · exact hdom' b hbR a ha'

theorem retains_top_push_all {α : Type} [LinearOrder α] (cap : Nat) :
    ∀ (l : List α) (h : BoundedMinHeap α) (M : Multiset α),
      h.capacity = cap → retains_top cap M h.heap.data →
      retains_top cap (M + (l : Multiset α)) (push_all h l).heap.data := by
  intro l
  induction l with
  | nil =>
    intro h M hcap hinv
    simpa [push_all] using hinv
  | cons x xs ih =>
    intro h M hcap hinv
    have h1 := retains_top_push cap M h hcap hinv x
    have hcap1 : (h.push x).capacity = cap := by rw [bmh_push_capacity]; exact hcap
    have h2 := ih (h.push x) (x ::ₘ M) hcap1 h1
    have hms : M + ((x :: xs : List α) : Multiset α) = (x ::ₘ M) + (xs : Multiset α) := by
      rw [← Multiset.cons_coe, Multiset.add_cons, Multiset.cons_add]
    rw [hms]
    simpa [push_all] using h2

/-- C4 (amended): for every capacity K and every finite sequence of pushed
items, the heap retains exactly the K largest items of the sequence (size
`min K N`, a sub-multiset of the input, every discarded item at most every
retained one — the stated eviction rule, ties placed deterministically),
and `drain` returns exactly the retained items; their order is the heap
carrier's (for `BinaryHeap::drain`, arbitrary — ascending in this model),
not descending. -/
theorem c4_bounded_min_heap_top_k {α : Type} [LinearOrder α] (capacity : Nat)
    (l : List α) :
    ((push_all (BoundedMinHeap.new α capacity) l).heap.data.length = min capacity l.length)
    ∧ (((push_all (BoundedMinHeap.new α capacity) l).heap.data : List α) : Multiset α)
        ≤ (l : Multiset α)
    ∧ (∀ b ∈ (l : Multiset α)
          - (((push_all (BoundedMinHeap.new α capacity) l).heap.data : List α) : Multiset α),
        ∀ a ∈ (push_all (BoundedMinHeap.new α capacity) l).heap.data, b ≤ a)
    ∧ (push_all (BoundedMinHeap.new α capacity) l).heap.data.Sorted (· ≤ ·)
    ∧ (BoundedMinHeap.drain (push_all (BoundedMinHeap.new α capacity) l)).1
        = (push_all (BoundedMinHeap.new α capacity) l).heap.data := by
  have h0 : retains_top capacity (0 : Multiset α) (BoundedMinHeap.new α capacity).heap.data := by
    refine ⟨List.sorted_nil, by simp [BoundedMinHeap.new], by simp [BoundedMinHeap.new], ?_⟩
    intro b hb
    simp [BoundedMinHeap.new] at hb
  have h := retains_top_push_all capacity l (BoundedMinHeap.new α capacity) 0 rfl h0
  rw [zero_add] at h
  obtain ⟨hs, hl, hle, hd⟩ := h
  refine ⟨by simpa using hl, hle, hd, hs, rfl⟩

/-- C4 counterexample: with capacity 2 and pushes 1 then 2, `drain` returns
`[1, 2]` — the heap carrier's order (also the real `BinaryHeap` array layout
for this input) — which is not descending, against the claim that draining
returns the retained items largest-first. -/
theorem c4_cex_drain_not_descending :
    (BoundedMinHeap.drain (push_all (BoundedMinHeap.new Nat 2) [1, 2])).1 = [1, 2]
    ∧ ¬ List.Sorted (· ≥ ·)
        (BoundedMinHeap.drain (push_all (BoundedMinHeap.new Nat 2) [1, 2])).1 := by
  constructor
  · rfl
  · intro hsorted
    have h12 : (1 : Nat) ≥ 2 := by
      have := List.sorted_cons.mp hsorted
      exact this.1 2 (by simp)
    omega

theorem repo_find_map (repo : AlbumRepo) (f : AlbumReadModel → AlbumReadModel)
    (hf : ∀ a, (f a).file_name = a.file_name) (fn : FileName) :
    repo_find (repo.map f) fn = (repo_find repo fn).map f := by
  induction repo with
  | nil => rfl
  | cons a rest ih =>
    unfold repo_find at ih ⊢
    rw [List.map_cons]
    by_cases ha : (a.file_name == fn) = true
    · rw [@List.find?_cons_of_pos _ (fun x => x.file_name == fn) (f a) _
          (show ((f a).file_name == fn) = true from by rw [hf a]; exact ha),
        @List.find?_cons_of_pos _ (fun x => x.file_name == fn) a _ ha]
      rfl
    · rw [@List.find?_cons_of_neg _ (fun x => x.file_name == fn) (f a) _
          (show ¬((f a).file_name == fn) = true from by rw [hf a]; exact ha),
        @List.find?_cons_of_neg _ (fun x => x.file_name == fn) a _ ha]
      exact ih

theorem repo_find_update (repo : AlbumRepo) (fn : FileName)
    (g : AlbumReadModel → AlbumReadModel) (hg : ∀ a, (g a).file_name = a.file_name)
    (fn' : FileName) :
    repo_find (repo_update repo fn g) fn'
      = (repo_find repo fn').map fun a => if a.file_name == fn then g a else a := by
  unfold repo_update
  exact repo_find_map repo _ (fun a => by by_cases h : (a.file_name == fn) = true <;>
    simp [h, hg]) fn'

theorem repo_find_update_self (repo : AlbumRepo) (fn : FileName)
    (g : AlbumReadModel → AlbumReadModel) (hg : ∀ a, (g a).file_name = a.file_name)
    (a : AlbumReadModel) (found : repo_find repo fn = some a) :
    repo_find (repo_update repo fn g) fn = some (g a) := by
  rw [repo_find_update repo fn g hg fn, found]
  have found2 : List.find? (fun x => x.file_name == fn) repo = some a := found
  have hpred : (a.file_name == fn) = true :=
    @List.find?_some _ (fun x => x.file_name == fn) a repo found2
  rw [Option.map_some', if_pos hpred]

theorem repo_find_update_other (repo : AlbumRepo) (fn : FileName)
    (g : AlbumReadModel → AlbumReadModel) (hg : ∀ a, (g a).file_name = a.file_name)
    (fn' : FileName) (hne : fn' ≠ fn) :
    repo_find (repo_update repo fn g) fn' = repo_find repo fn' := by
  rw [repo_find_update repo fn g hg fn']
  cases hfind : repo_find repo fn' with
  | none => rfl
  | some a =>
    have hfind2 : List.find? (fun x => x.file_name == fn') repo = some a := hfind
    have hpred : (a.file_name == fn') = true :=
      @List.find?_some _ (fun x => x.file_name == fn') a repo hfind2
    have : (a.file_name == fn) = false := by
      rw [beq_iff_eq] at hpred
      simp [hpred, hne]
    rw [Option.map_some', if_neg (by simp [this])]

theorem repo_find_mem (repo : AlbumRepo)
    (hnd : (repo.map (fun a => a.file_name)).Nodup) (a : AlbumReadModel)
    (ha : a ∈ repo) : repo_find repo a.file_name = some a := by
  induction repo with
  | nil => cases ha
  | cons b rest ih =>
    rcases List.mem_cons.mp ha with rfl | ha
    · unfold repo_find
      rw [@List.find?_cons_of_pos _ (fun x => x.file_name == a.file_name) a _ (by simp)]
    · rw [List.map_cons] at hnd
      have hnd' := List.nodup_cons.mp hnd
      have hba : ¬(b.file_name == a.file_name) = true := by
        rw [beq_iff_eq]
        intro he
        exact hnd'.1 (he ▸ List.mem_map_of_mem (fun x => x.file_name) ha)
      unfold repo_find
      rw [@List.find?_cons_of_neg _ (fun x => x.file_name == a.file_name) b _ hba]
      exact ih hnd'.2 ha

theorem set_duplicates_file_name (dups : List FileName) (a : AlbumReadModel) :
    ({ a with duplicates := dups } : AlbumReadModel).file_name = a.file_name := rfl

theorem set_duplicate_of_file_name (o : FileName) (a : AlbumReadModel) :
    ({ a with duplicate_of := some o } : AlbumReadModel).file_name = a.file_name := rfl

theorem fold_dup_trace (o : FileName) (tail : List AlbumReadModel) :
    ∀ (r : AlbumRepo) (ps : List AlbumReadModel),
      (tail.foldl (apply_duplicate o) (r, ps)).2
        = ps ++ (tail.filter (fun d => d.duplicate_of ≠ some o)).map
            (fun d => { d with duplicate_of := some o }) := by
  induction tail with
  | nil => intro r ps; simp
  | cons d rest ih =>
    intro r ps
    by_cases hd : d.duplicate_of ≠ some o
    · rw [List.foldl_cons]
      rw [show apply_duplicate o (r, ps) d
          = (set_duplicate_of r d.file_name o, ps ++ [{ d with duplicate_of := some o }])
        from by simp [apply_duplicate, hd]]
      rw [ih]
      simp [hd]
    · rw [List.foldl_cons]
      rw [show apply_duplicate o (r, ps) d = (r, ps) from by simp [apply_duplicate, hd]]
      rw [ih]
      simp [hd]

theorem fold_dup_find_other (o : FileName) (fn : FileName) (tail : List AlbumReadModel) :
    ∀ (r : AlbumRepo) (ps : List AlbumReadModel),
      fn ∉ tail.map (fun d => d.file_name) →
      repo_find (tail.foldl (apply_duplicate o) (r, ps)).1 fn = repo_find r fn := by
  induction tail with
  | nil => intro r ps _; rfl
  | cons d rest ih =>
    intro r ps hfn
    have hne : fn ≠ d.file_name := fun he => hfn (by simp [he])
    have hrest : fn ∉ rest.map (fun d => d.file_name) := fun hm => hfn (by simp [hm])
    rw [List.foldl_cons]
    by_cases hd : d.duplicate_of ≠ some o
    · rw [show apply_duplicate o (r, ps) d
          = (set_duplicate_of r d.file_name o, ps ++ [{ d with duplicate_of := some o }])
        from by simp [apply_duplicate, hd]]
      rw [ih _ _ hrest]
      exact repo_find_update_other r d.file_name _ (set_duplicate_of_file_name o) fn hne
    · rw [show apply_duplicate o (r, ps) d = (r, ps) from by simp [apply_duplicate, hd]]
      exact ih _ _ hrest

theorem fold_dup_find_mem (o : FileName) (tail : List AlbumReadModel) :
    ∀ (r : AlbumRepo) (ps : List AlbumReadModel) (d : AlbumReadModel),
      (tail.map (fun d => d.file_name)).Nodup → d ∈ tail →
      repo_find r d.file_name = some d →
      repo_find (tail.foldl (apply_duplicate o) (r, ps)).1 d.file_name
        = some { d with duplicate_of := some o } := by
  induction tail with
  | nil => intro r ps d _ hd; cases hd
  | cons d0 rest ih =>
    intro r ps d hnd hd hfound
    rw [List.map_cons] at hnd
    have hnd' := List.nodup_cons.mp hnd
    rcases List.mem_cons.mp hd with rfl | hd
    · have hnotin : d.file_name ∉ rest.map (fun x => x.file_name) := hnd'.1
      rw [List.foldl_cons]
      by_cases h0 : d.duplicate_of ≠ some o
      · rw [show apply_duplicate o (r, ps) d
            = (set_duplicate_of r d.file_name o, ps ++ [{ d with duplicate_of := some o }])
          from by simp [apply_duplicate, h0]]
        rw [fold_dup_find_other o d.file_name rest _ _ hnotin]
        exact repo_find_update_self r d.file_name _ (set_duplicate_of_file_name o) d hfound
      · rw [show apply_duplicate o (r, ps) d = (r, ps) from by simp [apply_duplicate, h0]]
        rw [fold_dup_find_other o d.file_name rest _ _ hnotin]
        rw [not_not] at h0
        have heq : ({ d with duplicate_of := some o } : AlbumReadModel) = d := by
          cases d
          simp_all
        rw [heq]
        exact hfound
    · have hne : d.file_name ≠ d0.file_name := by
        intro he
        exact hnd'.1 (he ▸ List.mem_map_of_mem (fun x => x.file_name) hd)
      rw [List.foldl_cons]
      by_cases h0 : d0.duplicate_of ≠ some o
      · rw [show apply_duplicate o (r, ps) d0
            = (set_duplicate_of r d0.file_name o, ps ++ [{ d0 with duplicate_of := some o }])
          from by simp [apply_duplicate, h0]]
        refine ih _ _ d hnd'.2 hd
          ((repo_find_update_other r d0.file_name _ (set_duplicate_of_file_name o)
            d.file_name hne).trans hfound)
      · rw [show apply_duplicate o (r, ps) d0 = (r, ps) from by simp [apply_duplicate, h0]]
        exact ih _ _ d hnd'.2 hd hfound

/-- C1: after every `put(album)` on the album interactor the
duplicate-reconciliation protocol runs over the albums of the album's
artists whose ASCII-lowercased name matches: with at least two matches the
head of the stable descending-by-`rating_count` sort (a match of maximal
rating count) ends stored with `duplicates` equal to the sorted file names
of the other matches, every other match ends stored with `duplicate_of` set
to the original's file name, all other records are untouched, and the trace
of search-index writes shows that records already holding the exact target
values are not rewritten; with at most one match nothing changes beyond the
put itself. -/
theorem c1_put_reconciles_duplicates (repo : AlbumRepo) (album : AlbumReadModel)
    (hnd : ((repo_put repo album).map (fun a => a.file_name)).Nodup) :
    ((duplicate_matches (repo_put repo album) album).length ≤ 1 →
        interactor_put repo album = (repo_put repo album, [album]))
    ∧ (∀ original tail,
        sorted_by_rating_count_desc (duplicate_matches (repo_put repo album) album)
          = original :: tail →
        2 ≤ (duplicate_matches (repo_put repo album) album).length →
        (∀ b ∈ duplicate_matches (repo_put repo album) album,
            b.rating_count ≤ original.rating_count)
        ∧ repo_find (interactor_put repo album).1 original.file_name
            = some { original with
                duplicates := sort_file_names (tail.map (fun d => d.file_name)) }
        ∧ (∀ d ∈ tail, repo_find (interactor_put repo album).1 d.file_name
            = some { d with duplicate_of := some original.file_name })
        ∧ (∀ fn, fn ∉ (original :: tail).map (fun a => a.file_name) →
            repo_find (interactor_put repo album).1 fn
              = repo_find (repo_put repo album) fn)
        ∧ (interactor_put repo album).2
            = album ::
              ((if original.duplicates
                    ≠ sort_file_names (tail.map (fun d => d.file_name)) then
                  [{ original with
                      duplicates := sort_file_names (tail.map (fun d => d.file_name)) }]
                else [])
              ++ (tail.filter (fun d => d.duplicate_of ≠ some original.file_name)).map
                  (fun d => { d with duplicate_of := some original.file_name }))) := by
  constructor
  · intro hle1
    have hproc : process_duplicates (repo_put repo album) album
        = (repo_put repo album, []) := by
      simp only [process_duplicates]
      rw [if_pos hle1]
    show ((process_duplicates (repo_put repo album) album).1,
        album :: (process_duplicates (repo_put repo album) album).2)
      = (repo_put repo album, [album])
    rw [hproc]
  · intro original tail hsorted hge2
    have hnotle : ¬ ((duplicate_matches (repo_put repo album) album).length ≤ 1) := by
      omega
    set dups := sort_file_names (tail.map (fun d => d.file_name)) with hdups
    have hproc : process_duplicates (repo_put repo album) album
        = tail.foldl (apply_duplicate original.file_name)
            (if original.duplicates ≠ dups then
              (set_duplicates (repo_put repo album) original.file_name dups,
                [{ original with duplicates := dups }])
            else (repo_put repo album, [])) := by
      simp only [process_duplicates]
      rw [if_neg hnotle, hsorted]
    have hsub : (duplicate_matches (repo_put repo album) album).Sublist
        (repo_put repo album) := by
      unfold duplicate_matches find_artist_albums
      exact (List.filter_sublist _).trans (List.filter_sublist _)
    have hnd_matches : ((duplicate_matches (repo_put repo album) album).map
        (fun a => a.file_name)).Nodup := hnd.sublist (hsub.map _)
    have hperm : (original :: tail).Perm
        (duplicate_matches (repo_put repo album) album) := by
      rw [← hsorted]
      exact List.perm_insertionSort _ _
    have hnd_ot : ((original :: tail).map (fun a => a.file_name)).Nodup :=
      ((hperm.map _).nodup_iff).mpr hnd_matches
    rw [List.map_cons] at hnd_ot
    have hnd_ot' := List.nodup_cons.mp hnd_ot
    have hmem_repo : ∀ x ∈ original :: tail, x ∈ repo_put repo album := by
      intro x hx
      exact hsub.subset (hperm.subset hx)
    have hfound : ∀ x ∈ original :: tail,
        repo_find (repo_put repo album) x.file_name = some x := by
      intro x hx
      exact repo_find_mem _ hnd x (hmem_repo x hx)
    have hacc : ∃ r0 ps0,
        (if original.duplicates ≠ dups then
            (set_duplicates (repo_put repo album) original.file_name dups,
              [{ original with duplicates := dups }])
          else (repo_put repo album, []))
          = (r0, ps0)
        ∧ repo_find r0 original.file_name = some { original with duplicates := dups }
        ∧ (∀ fn, fn ≠ original.file_name →
            repo_find r0 fn = repo_find (repo_put repo album) fn)
        ∧ ps0 = (if original.duplicates ≠ dups then
            [{ original with duplicates := dups }] else []) := by
      by_cases hd : original.duplicates ≠ dups
      · refine ⟨_, _, by rw [if_pos hd], ?_, ?_, by rw [if_pos hd]⟩
        · exact repo_find_update_self _ _ _ (set_duplicates_file_name dups) original
            (hfound original (List.mem_cons_self _ _))
        · intro fn hfn
          exact repo_find_update_other _ _ _ (set_duplicates_file_name dups) fn hfn
      · refine ⟨_, _, by rw [if_neg hd], ?_, fun fn _ => rfl, by rw [if_neg hd]⟩
        rw [not_not] at hd
        have heq : ({ original with duplicates := dups } : AlbumReadModel) = original := by
          cases original
          simp_all
        rw [heq]
        exact hfound original (List.mem_cons_self _ _)
    obtain ⟨r0, ps0, hacc0, hr0_orig, hr0_other, hps0⟩ := hacc
    have hfinal : process_duplicates (repo_put repo album) album
        = tail.foldl (apply_duplicate original.file_name) (r0, ps0) := by
      rw [hproc, hacc0]
    refine ⟨?_, ?_, ?_, ?_, ?_⟩
    · haveI instTot : IsTotal AlbumReadModel
          (fun a b => b.rating_count ≤ a.rating_count) :=
        ⟨fun a b => le_total _ _⟩
      haveI instTrans : IsTrans AlbumReadModel
          (fun a b => b.rating_count ≤ a.rating_count) :=
        ⟨fun _ _ _ hab hbc => le_trans hbc hab⟩
      have hsorted2 : List.Sorted (fun a b => b.rating_count ≤ a.rating_count)
          (original :: tail) := by
        rw [← hsorted]
        exact List.sorted_insertionSort _ _
      intro b hb
      rcases List.mem_cons.mp (hperm.mem_iff.mpr hb) with hb0 | hbt
      · rw [hb0]
      · exact (List.sorted_cons.mp hsorted2).1 b hbt
    · show repo_find (process_duplicates (repo_put repo album) album).1
          original.file_name = _
      rw [hfinal]
      rw [fold_dup_find_other original.file_name original.file_name tail _ _ hnd_ot'.1]
      exact hr0_orig
    · intro d hd
      show repo_find (process_duplicates (repo_put repo album) album).1
          d.file_name = _
      rw [hfinal]
      refine fold_dup_find_mem original.file_name tail _ _ d hnd_ot'.2 hd ?_
      have hne : d.file_name ≠ original.file_name := by
        intro he
        exact hnd_ot'.1 (he ▸ List.mem_map_of_mem _ hd)
      rw [hr0_other d.file_name hne]
      exact hfound d (List.mem_cons_of_mem _ hd)
    · intro fn hfn
      have hfn1 : fn ≠ original.file_name := by
        intro he
        exact hfn (by simp [he])
      have hfn2 : fn ∉ tail.map (fun a => a.file_name) := by
        intro hm
        exact hfn (by simp; exact Or.inr (by simpa using hm))
      show repo_find (process_duplicates (repo_put repo album) album).1 fn = _
      rw [hfinal, fold_dup_find_other original.file_name fn tail _ _ hfn2]
      exact hr0_other fn hfn1
    · show album :: (process_duplicates (repo_put repo album) album).2 = _
      rw [hfinal, fold_dup_trace original.file_name tail r0 ps0, hps0]

/-- C1 witness: putting the 50-rated "Kid A" next to a stored 100-rated
"Kid A" by the same artist leaves the 100-rated stored as the original with
`duplicates = [file of the 50-rated]`. -/
theorem c1_put_reconciles_duplicates_witness :
    repo_find (interactor_put [album_w_hi] album_w_lo).1 (str ("album/a"))
      = some { album_w_hi with duplicates := [str ("album/b")] } :=
  ((c1_put_reconciles_duplicates [album_w_hi] album_w_lo (by decide)).2 album_w_hi
    [album_w_lo] (by decide) (by decide)).2.1
